import Mathlib

/-!
# go-websocket: connection registry, broadcaster, lifecycle handler, sampler

A shallow embedding of `src/main.go`.

* The global `clients` map (`map[*websocket.Conn]bool`) is an association list
  from connection identities to flags; `clients[ws] = true` is `Clients.set`,
  `delete(clients, ws)` is `Clients.delete`.
* Calls into the collaborators (gorilla/websocket, gommon/log, gopsutil, the
  `broadcast` channel, `time.Sleep`) are recorded, in program order, in a trace
  of `Event`s.  Their outcomes (does this read fail, does this write fail, does
  the memory query fail) are inputs of the model.
* The order in which `for client := range clients` produces the keys is not
  fixed by Go; it is an input of the model (`iterOrder`), and every statement
  below holds for every order.
* Each of the three goroutine bodies is embedded as a function of its own;
  where several of them are composed, each operation is taken as one step.
-/

namespace GoWebsocket

/-! ## Data model -/

/-- Identity of a `*websocket.Conn` (the pointer used as key of `clients`). -/
abbrev Conn := Nat

/-- The struct `responseMessage` of `main.go`, fields in declaration order. -/
structure responseMessage where
  TotalMemory : String
  FreeMemory : String
  UsedMemory : String
  PercentageUsedMemory : String
  Time : String
deriving DecidableEq, Repr

/-- The map `clients = make(map[*websocket.Conn]bool)`: an association list,
read through `Clients.lookup` (first binding of a key wins). -/
abbrev Clients := List (Conn × Bool)

namespace Clients

/-- The empty map, `make(map[*websocket.Conn]bool)`. -/
def empty : Clients := []

/-- Map read `clients[k]` with presence: `some v` when `k` is a key. -/
def lookup (m : Clients) (k : Conn) : Option Bool :=
  match m with
  | [] => none
  | (k0, v) :: rest => if k0 = k then some v else lookup rest k

/-- The builtin `delete(clients, k)`: removes the key, a no-op when absent. -/
def delete (m : Clients) (k : Conn) : Clients :=
  m.filter (fun kv => decide (kv.1 ≠ k))

/-- The assignment `clients[k] = v`. -/
def set (m : Clients) (k : Conn) (v : Bool) : Clients :=
  (k, v) :: delete m k

/-- The keys of the map, each once. -/
def keys (m : Clients) : List Conn :=
  (m.map Prod.fst).dedup

end Clients

/-- A call into a collaborator of `main.go`, as recorded in the trace. -/
inductive Event where
  /-- Call of `upgrader.Upgrade(...)` and whether it succeeded. -/
  | upgrade (ok : Bool)
  /-- Call of `ws.ReadMessage()` on a connection and whether it succeeded. -/
  | read (c : Conn) (ok : Bool)
  /-- Call of `client.WriteJSON(msg)` on a connection, its payload and whether it succeeded. -/
  | write (c : Conn) (m : responseMessage) (ok : Bool)
  /-- Call of `Close()` on a connection. -/
  | close (c : Conn)
  /-- Call of `log.Printf("error: %v", err)`. -/
  | printf
  /-- Call of `log.Fatalf("Failed to upgrade connection: %v", err)`. -/
  | fatalf
deriving DecidableEq, Repr

/-- The shared state: the global `clients` and the trace of collaborator calls. -/
structure World where
  clients : Clients
  trace : List Event
deriving DecidableEq, Repr

/-! ## `handleMessages`: the broadcaster -/

/-- The order in which `range clients` produces the keys `ks`: Go leaves it
unspecified, so it is chosen by `hint`: the keys named by `hint` first, in the
order of `hint`, then the remaining keys.  Every permutation of `ks` is the
order of some `hint` (`iterOrder_self`) and nothing else is
(`iterOrder_perm`). -/
def iterOrder (hint ks : List Conn) : List Conn :=
  (hint.dedup.filter (fun c => decide (c ∈ ks))) ++ ks.filter (fun c => decide (c ∉ hint))

/-- The body of the `range` loop of `handleMessages` (lines 97-102) for one
`client`: `WriteJSON(msg)`; on an error `log.Printf`, `client.Close()`,
`delete(clients, client)`.  `out client` tells whether the write succeeds. -/
def broadcastBody (msg : responseMessage) (out : Conn → Bool) (client : Conn) (w : World) :
    World :=
  if out client then
    { w with trace := w.trace ++ [Event.write client msg true] }
  else
    { clients := Clients.delete w.clients client
      trace := w.trace ++ [Event.write client msg false, Event.printf, Event.close client] }

/-- The loop `for client := range clients` over the keys in the order `order`,
taken when the loop starts.  As in Go, an entry removed before it is reached is
not produced. -/
def rangeLoop (msg : responseMessage) (out : Conn → Bool) : List Conn → World → World
  | [], w => w
  | client :: rest, w =>
    if client ∈ Clients.keys w.clients then
      rangeLoop msg out rest (broadcastBody msg out client w)
    else
      rangeLoop msg out rest w

/-- One broadcast round of `handleMessages`: the inner loop (lines 96-103) for
one received `msg`. -/
def broadcastRound (msg : responseMessage) (out : Conn → Bool) (hint : List Conn) (w : World) :
    World :=
  rangeLoop msg out (iterOrder hint (Clients.keys w.clients)) w

/-- The write attempts of a trace, in order: connection and payload of every
`WriteJSON`, failed or not. -/
def writeAttempts : List Event → List (Conn × responseMessage)
  | [] => []
  | Event.write c m _ :: rest => (c, m) :: writeAttempts rest
  | _ :: rest => writeAttempts rest

/-- The events the loop body adds to the trace for one client. -/
def bodyEvents (msg : responseMessage) (out : Conn → Bool) (client : Conn) : List Event :=
  if out client then [Event.write client msg true]
  else [Event.write client msg false, Event.printf, Event.close client]

/-! ## `handleConnections`: the lifecycle handler -/

/-- A Go `error` value (its message). -/
abbrev GoError := String

/-- Result of `ws.ReadMessage()`: `(messageType, p)` or an error. -/
abbrev ReadResult := Except GoError (Int × List Nat)

/-- How far a call of `handleConnections` has come. -/
inductive HandlerResult where
  /-- The handler returned this `error` (`none` is `nil`) to its caller. -/
  | returned (err : Option GoError)
  /-- The process was terminated with this exit status. -/
  | exited (status : Nat)
  /-- The handler is blocked in `ws.ReadMessage()` of its read loop. -/
  | reading (ws : Conn)
deriving DecidableEq, Repr

/-- The read loop of `handleConnections` (lines 79-89) over the results of the
successive `ws.ReadMessage()` calls.  A successful read discards its payload and
loops; the first error does `log.Printf`, `delete(clients, ws)`, `break`, and
the function returns `nil`, at which point the deferred `ws.Close()` runs.
When the given results are used up, the handler is blocked in the next read. -/
def readLoop (ws : Conn) : List ReadResult → World → HandlerResult × World
  | [], w => (HandlerResult.reading ws, w)
  | Except.ok _ :: rest, w =>
    readLoop ws rest { w with trace := w.trace ++ [Event.read ws true] }
  | Except.error _ :: _, w =>
    (HandlerResult.returned none,
      { clients := Clients.delete w.clients ws
        trace := w.trace ++ [Event.read ws false, Event.printf, Event.close ws] })

/-- The function `handleConnections` (lines 65-90).  `up` is the result of
`upgrader.Upgrade`.  On an upgrade error the code calls `log.Fatalf`, which in
gommon/log writes the message and calls `os.Exit(1)`: the `return err` of line
71 is not reached.  On success: `defer ws.Close()`, `clients[ws] = true`, then
the read loop. -/
def handleConnections (up : Except GoError Conn) (reads : List ReadResult) (w : World) :
    HandlerResult × World :=
  match up with
  | Except.error _ =>
    (HandlerResult.exited 1, { w with trace := w.trace ++ [Event.upgrade false, Event.fatalf] })
  | Except.ok ws =>
    readLoop ws reads
      { clients := Clients.set w.clients ws true, trace := w.trace ++ [Event.upgrade true] }

/-- The number of times the transport of `c` is closed along a trace, `closed`
telling whether it is closed already.  The method `Close()` of
gorilla/websocket closes the underlying network connection; called on a
connection that is closed already it returns an error, which both callers in
`main.go` discard, and closes nothing. -/
def transportClosures (c : Conn) : Bool → List Event → Nat
  | _, [] => 0
  | closed, Event.close c2 :: rest =>
    if c2 = c then (if closed then 0 else 1) + transportClosures c true rest
    else transportClosures c closed rest
  | closed, _ :: rest => transportClosures c closed rest

/-! ## Sequences of registry operations -/

/-- An operation on the registry, each taken as one step. -/
inductive Op where
  /-- A request whose upgrade yields `ws`: `handleConnections` up to its read loop. -/
  | connect (ws : Conn)
  /-- The read loop of the handler of `ws` gets an error. -/
  | readFail (ws : Conn)
  /-- One broadcast round of `handleMessages` for `msg`, with the write outcomes
  `out` and the iteration order chosen by `hint`. -/
  | round (msg : responseMessage) (out : Conn → Bool) (hint : List Conn)

/-- The effect of one operation, through the embedded functions. -/
def Op.step (op : Op) (w : World) : World :=
  match op with
  | Op.connect ws => (handleConnections (Except.ok ws) [] w).2
  | Op.readFail ws => (readLoop ws [Except.error "read error"] w).2
  | Op.round msg out hint => broadcastRound msg out hint w

/-- Runs a sequence of operations from a world. -/
def run : List Op → World → World
  | [], w => w
  | op :: rest, w => run rest (Op.step op w)

/-- Does `op` take connection `c` out of the registry: a read failure of `c`,
or a round in which the write to `c` fails. -/
def Op.removes (c : Conn) : Op → Bool
  | Op.connect _ => false
  | Op.readFail ws => decide (ws = c)
  | Op.round _ out _ => !out c

/-- The words of the specification: `c` connected and afterwards neither had a
read failure nor failed a write in any round. -/
def Survives (c : Conn) (ops : List Op) : Prop :=
  ∃ pre post, ops = pre ++ Op.connect c :: post ∧ ∀ op ∈ post, Op.removes c op = false

/-- What the environment does around the broadcaster: handlers connecting and
failing reads, and the broadcaster receiving from `broadcast` and running a
round with the given write outcomes and iteration order. -/
inductive Sched where
  | connect (ws : Conn)
  | readFail (ws : Conn)
  | receive (out : Conn → Bool) (hint : List Conn)

/-- The loop of `handleMessages` (lines 94-104) fed by the channel: the
messages `ch` sent on `broadcast`, in sending order, are received one per
round (`msg := <-broadcast`); with nothing left to receive the broadcaster
stays blocked and runs no round. -/
def schedule : List responseMessage → List Sched → List Op
  | _, [] => []
  | ch, Sched.connect ws :: rest => Op.connect ws :: schedule ch rest
  | ch, Sched.readFail ws :: rest => Op.readFail ws :: schedule ch rest
  | [], Sched.receive _ _ :: rest => schedule [] rest
  | m :: ch, Sched.receive out hint :: rest => Op.round m out hint :: schedule ch rest

/-- The payloads of the writes attempted on connection `c`, in trace order. -/
def writesTo (c : Conn) (tr : List Event) : List responseMessage :=
  ((writeAttempts tr).filter (fun a => decide (a.1 = c))).map Prod.snd

/-- The writes of consecutive rounds: round `i` writes message `i` of `ch` to
the connections of block `i` of `ks`, one block after the other. -/
def roundBlocks (ch : List responseMessage) (ks : List (List Conn)) :
    List (Conn × responseMessage) :=
  (List.zipWith (fun m cs => cs.map (fun c => (c, m))) ch ks).flatten

/-! ## `collectStats`: the sampler -/

/-- The constant `kbToMb = 1024 * 1024`. -/
def kbToMb : Nat := 1024 * 1024

/-- A `float64`: not-a-number, an infinity, or the finite value
`(-1)^neg * mant * 2^exp`. -/
inductive Float64 where
  | nan
  | inf (neg : Bool)
  | finite (neg : Bool) (mant : Nat) (exp : Int)
deriving DecidableEq, Repr

/-- The fields of gopsutil `mem.VirtualMemoryStat` read by `collectStats`:
three `uint64` byte counts and the `float64` percentage. -/
structure VirtualMemoryStat where
  Total : Nat
  Used : Nat
  Free : Nat
  UsedPercent : Float64
deriving DecidableEq, Repr

/-- A `time.Time` as its calendar date and clock. -/
structure GoTime where
  year : Int
  month : Nat
  day : Nat
  hour : Nat
  minute : Nat
  second : Nat
deriving DecidableEq, Repr

/-- The ranges of the date and clock fields of a `time.Time`. -/
def GoTime.valid (t : GoTime) : Prop :=
  1 ≤ t.month ∧ t.month ≤ 12 ∧ 1 ≤ t.day ∧ t.day ≤ 31 ∧
    t.hour < 24 ∧ t.minute < 60 ∧ t.second < 60

instance (t : GoTime) : Decidable t.valid := by
  unfold GoTime.valid
  infer_instance

/-- Model of `fmt.Sprintf("%d", u)` for an unsigned integer: its decimal digits. -/
def sprintfD (u : Nat) : String :=
  String.mk (Nat.toDigits 10 u)

/-- Decimal digits of `n`, padded with zeros on the left to `width`. -/
def zeroPad (width n : Nat) : List Char :=
  List.replicate (width - (Nat.toDigits 10 n).length) '0' ++ Nat.toDigits 10 n

/-- The helper `appendInt` of package `time`: a minus sign for a negative
value, then the decimal digits zero-padded to `width`. -/
def appendInt (x : Int) (width : Nat) : List Char :=
  if x < 0 then '-' :: zeroPad width x.natAbs else zeroPad width x.natAbs

/-- Model of `t.Format("02-01-2006 15:04:05")`: day, month (two digits each), year
(four digits), hour, minute, second (two digits each). -/
def formatTime (t : GoTime) : String :=
  String.mk (appendInt t.day 2 ++ '-' :: appendInt t.month 2 ++ '-' :: appendInt t.year 4 ++
    ' ' :: appendInt t.hour 2 ++ ':' :: appendInt t.minute 2 ++ ':' :: appendInt t.second 2)

/-- The value `mant * 2^exp * 100` rounded to the nearest integer, ties to
even: the number of hundredths that `%.2f` prints. -/
def roundHundredths (mant : Nat) (exp : Int) : Nat :=
  match exp with
  | Int.ofNat k => mant * 2 ^ k * 100
  | Int.negSucc k =>
    let d := 2 ^ (k + 1)
    let q := mant * 100 / d
    let r := mant * 100 % d
    if 2 * r < d then q
    else if d < 2 * r then q + 1
    else if q % 2 = 0 then q else q + 1

/-- Model of `fmt.Sprintf("%.2f", x)`: `NaN`, `+Inf`, `-Inf`, or sign, integer digits, a
point and two fractional digits of the correctly rounded value. -/
def sprintf2f (x : Float64) : String :=
  match x with
  | Float64.nan => "NaN"
  | Float64.inf false => "+Inf"
  | Float64.inf true => "-Inf"
  | Float64.finite neg mant exp =>
    String.mk ((if neg then ['-'] else []) ++
      Nat.toDigits 10 (roundHundredths mant exp / 100) ++
      '.' :: zeroPad 2 (roundHundredths mant exp % 100))

/-- The message built in lines 117-129 from a sample `v` taken at `now`. -/
def buildMessage (v : VirtualMemoryStat) (now : GoTime) : responseMessage :=
  let totalMemory := sprintfD (v.Total / kbToMb)
  let userMemory := sprintfD (v.Used / kbToMb)
  let freeMemory := sprintfD (v.Free / kbToMb)
  let percentUsage := sprintf2f v.UsedPercent
  let timeNow := formatTime now
  { TotalMemory := totalMemory
    UsedMemory := userMemory
    FreeMemory := freeMemory
    PercentageUsedMemory := percentUsage
    Time := timeNow }

/-- What one iteration of `collectStats` meets: the result of
`mem.VirtualMemory()` and, on success, the value of `time.Now()`. -/
inductive Sample where
  | failure (err : GoError)
  | success (v : VirtualMemoryStat) (now : GoTime)
deriving DecidableEq, Repr

/-- An action of the sampler goroutine. -/
inductive SamplerEvent where
  /-- Call of `mem.VirtualMemory()` and whether it succeeded. -/
  | query (ok : Bool)
  /-- Call of `log.Printf("error: %v", err)`. -/
  | printf
  /-- Send `broadcast <- msg`. -/
  | send (msg : responseMessage)
  /-- Call of `time.Sleep(d)`, `d` in nanoseconds. -/
  | sleep (d : Nat)
deriving DecidableEq, Repr

/-- The loop of `collectStats` (lines 110-132), one iteration per sample.  On
a query error: `log.Printf` and `continue`, which starts the next iteration at
once.  On success: build the message, send it, `time.Sleep(1 * time.Second)`. -/
def collectStats : List Sample → List SamplerEvent
  | [] => []
  | Sample.failure _ :: rest =>
    SamplerEvent.query false :: SamplerEvent.printf :: collectStats rest
  | Sample.success v now :: rest =>
    SamplerEvent.query true :: SamplerEvent.send (buildMessage v now) ::
      SamplerEvent.sleep 1000000000 :: collectStats rest

/-- The messages sent on `broadcast`, in sending order. -/
def sent : List SamplerEvent → List responseMessage
  | [] => []
  | SamplerEvent.send msg :: rest => msg :: sent rest
  | _ :: rest => sent rest

/-- The message of a sample when its query succeeded. -/
def sampleMessage : Sample → Option responseMessage
  | Sample.failure _ => none
  | Sample.success v now => some (buildMessage v now)

/-- The language of `^\d+\.\d{2}$`: one or more digits, a point, two digits. -/
def MatchesPercent (s : List Char) : Prop :=
  ∃ ds a b, s = ds ++ ['.', a, b] ∧ ds ≠ [] ∧ (∀ c ∈ ds, c.isDigit = true) ∧
    a.isDigit = true ∧ b.isDigit = true

/-- The language of `^\d{2}-\d{2}-\d{4} \d{2}:\d{2}:\d{2}$`. -/
def MatchesTime (s : List Char) : Prop :=
  ∃ d1 d2 m1 m2 y1 y2 y3 y4 h1 h2 n1 n2 s1 s2,
    s = [d1, d2, '-', m1, m2, '-', y1, y2, y3, y4, ' ', h1, h2, ':', n1, n2, ':', s1, s2] ∧
    ∀ c ∈ [d1, d2, m1, m2, y1, y2, y3, y4, h1, h2, n1, n2, s1, s2], c.isDigit = true

/-! ## Lemmas on the registry -/

theorem Clients.mem_keys (m : Clients) (k : Conn) :
    k ∈ Clients.keys m ↔ ∃ v, (k, v) ∈ m := by
  simp [Clients.keys]

theorem Clients.keys_nodup (m : Clients) : (Clients.keys m).Nodup :=
  List.nodup_dedup _

theorem Clients.lookup_isSome (m : Clients) (k : Conn) :
    (Clients.lookup m k).isSome = true ↔ k ∈ Clients.keys m := by
  induction m with
  | nil => simp [Clients.lookup, Clients.keys]
  | cons kv rest ih =>
    obtain ⟨k0, v⟩ := kv
    by_cases h : k0 = k
    · subst h
      simp [Clients.lookup, Clients.mem_keys]
    · have h2 : ¬ k = k0 := fun e => h e.symm
      simp only [Clients.lookup, h, if_false, ih, Clients.mem_keys, List.mem_cons, Prod.mk.injEq,
        h2, false_and, false_or]

theorem Clients.lookup_eq_none (m : Clients) (k : Conn) :
    Clients.lookup m k = none ↔ k ∉ Clients.keys m := by
  rw [← Clients.lookup_isSome]
  cases Clients.lookup m k <;> simp

theorem Clients.lookup_filter (m : Clients) (p : Conn → Bool) (k : Conn) :
    Clients.lookup (m.filter (fun kv => p kv.1)) k = if p k then Clients.lookup m k else none := by
  induction m with
  | nil => simp [Clients.lookup]
  | cons kv rest ih =>
    obtain ⟨k0, v⟩ := kv
    by_cases hp : p k0 = true
    · by_cases h : k0 = k
      · subst h
        simp [List.filter, hp, Clients.lookup]
      · simp [List.filter, hp, Clients.lookup, h, ih]
    · by_cases h : k0 = k
      · subst h
        simp only [List.filter, hp, ih]
        simp [hp]
      · simp [List.filter, hp, Clients.lookup, h, ih]

theorem Clients.lookup_delete (m : Clients) (k c : Conn) :
    Clients.lookup (Clients.delete m k) c = if c = k then none else Clients.lookup m c := by
  have h := Clients.lookup_filter m (fun x => decide (x ≠ k)) c
  simp only [Clients.delete]
  rw [h]
  by_cases e : c = k <;> simp [e]

theorem Clients.lookup_set (m : Clients) (k c : Conn) (v : Bool) :
    Clients.lookup (Clients.set m k v) c = if c = k then some v else Clients.lookup m c := by
  by_cases e : c = k
  · subst e
    simp [Clients.set, Clients.lookup]
  · have e2 : ¬ k = c := fun h => e h.symm
    simp [Clients.set, Clients.lookup, e, e2, Clients.lookup_delete]

theorem Clients.mem_keys_delete (m : Clients) (k c : Conn) :
    c ∈ Clients.keys (Clients.delete m k) ↔ c ≠ k ∧ c ∈ Clients.keys m := by
  rw [← Clients.lookup_isSome, ← Clients.lookup_isSome, Clients.lookup_delete]
  by_cases e : c = k <;> simp [e]

theorem Clients.mem_keys_set (m : Clients) (k c : Conn) (v : Bool) :
    c ∈ Clients.keys (Clients.set m k v) ↔ c = k ∨ c ∈ Clients.keys m := by
  rw [← Clients.lookup_isSome, ← Clients.lookup_isSome, Clients.lookup_set]
  by_cases e : c = k <;> simp [e]

theorem Clients.delete_of_not_mem (m : Clients) (k : Conn) (h : k ∉ Clients.keys m) :
    Clients.delete m k = m := by
  simp only [Clients.delete, List.filter_eq_self]
  intro kv hkv
  have : kv.1 ≠ k := by
    intro e
    apply h
    rw [Clients.mem_keys]
    exact ⟨kv.2, by rw [← e]; exact hkv⟩
  simpa using this

theorem Clients.delete_delete (m : Clients) (k : Conn) :
    Clients.delete (Clients.delete m k) k = Clients.delete m k := by
  apply Clients.delete_of_not_mem
  rw [Clients.mem_keys_delete]
  simp

/-! ## The iteration order -/

theorem iterOrder_perm (hint ks : List Conn) (hks : ks.Nodup) :
    (iterOrder hint ks).Perm ks := by
  have h1 : (hint.dedup.filter (fun c => decide (c ∈ ks))).Perm
      (ks.filter (fun c => decide (c ∈ hint))) := by
    rw [List.perm_ext_iff_of_nodup ((List.nodup_dedup hint).filter _) (hks.filter _)]
    intro a
    simp [List.mem_filter, and_comm]
  have h2 : (ks.filter (fun c => decide (c ∈ hint)) ++ ks.filter (fun c => decide (c ∉ hint))).Perm
      ks := by
    have := List.filter_append_perm (fun c => decide (c ∈ hint)) ks
    simpa using this
  exact (List.Perm.append_right _ h1).trans h2

theorem iterOrder_self (ks p : List Conn) (hp : p.Perm ks) (hks : ks.Nodup) :
    iterOrder p ks = p := by
  have hpn : p.Nodup := hp.symm.nodup_iff.mp hks
  have h1 : (p.dedup.filter (fun c => decide (c ∈ ks))) = p := by
    rw [List.Nodup.dedup hpn, List.filter_eq_self]
    intro a ha
    simpa using hp.mem_iff.mp ha
  have h2 : ks.filter (fun c => decide (c ∉ p)) = [] := by
    rw [List.filter_eq_nil_iff]
    intro a ha
    simpa using hp.mem_iff.mpr ha
  simp only [iterOrder, h1, h2, List.append_nil]

theorem iterOrder_nodup (hint ks : List Conn) (hks : ks.Nodup) : (iterOrder hint ks).Nodup :=
  (iterOrder_perm hint ks hks).symm.nodup_iff.mp hks

theorem mem_iterOrder (hint ks : List Conn) (hks : ks.Nodup) (c : Conn) :
    c ∈ iterOrder hint ks ↔ c ∈ ks :=
  (iterOrder_perm hint ks hks).mem_iff

/-! ## The broadcast round -/

theorem rangeLoop_spec (msg : responseMessage) (out : Conn → Bool) :
    ∀ (order : List Conn) (w : World), order.Nodup →
      (∀ c ∈ order, c ∈ Clients.keys w.clients) →
      rangeLoop msg out order w =
        { clients := w.clients.filter (fun kv => decide (kv.1 ∈ order → out kv.1 = true))
          trace := w.trace ++ order.flatMap (bodyEvents msg out) } := by
  intro order
  induction order with
  | nil =>
    intro w _ _
    simp [rangeLoop]
  | cons c rest ih =>
    intro w hnd hmem
    have hc : c ∈ Clients.keys w.clients := hmem c (List.mem_cons_self _ _)
    have hcr : c ∉ rest := (List.nodup_cons.mp hnd).1
    have hrn : rest.Nodup := (List.nodup_cons.mp hnd).2
    rw [rangeLoop, if_pos hc]
    by_cases ho : out c = true
    · have hb : broadcastBody msg out c w =
          { clients := w.clients, trace := w.trace ++ [Event.write c msg true] } := by
        simp [broadcastBody, ho]
      rw [hb, ih ⟨w.clients, w.trace ++ [Event.write c msg true]⟩ hrn
        (fun x hx => hmem x (List.mem_cons_of_mem _ hx))]
      congr 1
      · apply List.filter_congr
        intro kv _
        by_cases e : kv.1 = c
        · simp [e, ho, hcr]
        · simp [e]
      · simp [bodyEvents, ho, List.flatMap_cons]
    · have hb : broadcastBody msg out c w =
          { clients := Clients.delete w.clients c,
            trace := w.trace ++ [Event.write c msg false, Event.printf, Event.close c] } := by
        simp [broadcastBody, ho]
      have hmem2 : ∀ x ∈ rest, x ∈ Clients.keys (Clients.delete w.clients c) := by
        intro x hx
        rw [Clients.mem_keys_delete]
        refine ⟨?_, hmem x (List.mem_cons_of_mem _ hx)⟩
        intro e
        exact hcr (e ▸ hx)
      rw [hb, ih ⟨Clients.delete w.clients c,
        w.trace ++ [Event.write c msg false, Event.printf, Event.close c]⟩ hrn hmem2]
      congr 1
      · simp only [Clients.delete, List.filter_filter]
        apply List.filter_congr
        intro kv _
        by_cases e : kv.1 = c
        · simp [e, ho]
        · simp [e]
      · simp [bodyEvents, ho, List.flatMap_cons]

theorem broadcastRound_spec (msg : responseMessage) (out : Conn → Bool) (hint : List Conn)
    (w : World) :
    broadcastRound msg out hint w =
      { clients := w.clients.filter (fun kv => out kv.1)
        trace := w.trace ++
          (iterOrder hint (Clients.keys w.clients)).flatMap (bodyEvents msg out) } := by
  have hks := Clients.keys_nodup w.clients
  rw [broadcastRound, rangeLoop_spec msg out _ w (iterOrder_nodup _ _ hks)
    (fun c hc => (mem_iterOrder _ _ hks c).mp hc)]
  congr 1
  apply List.filter_congr
  intro kv hkv
  have : kv.1 ∈ iterOrder hint (Clients.keys w.clients) := by
    rw [mem_iterOrder _ _ hks, Clients.mem_keys]
    exact ⟨kv.2, hkv⟩
  simp [this]

theorem writeAttempts_append (a b : List Event) :
    writeAttempts (a ++ b) = writeAttempts a ++ writeAttempts b := by
  induction a with
  | nil => rfl
  | cons e rest ih => cases e <;> simp [writeAttempts, ih]

theorem writeAttempts_bodyEvents (msg : responseMessage) (out : Conn → Bool) (order : List Conn) :
    writeAttempts (order.flatMap (bodyEvents msg out)) = order.map (fun c => (c, msg)) := by
  induction order with
  | nil => rfl
  | cons c rest ih =>
    rw [List.flatMap_cons, writeAttempts_append, ih]
    by_cases ho : out c = true <;> simp [bodyEvents, ho, writeAttempts]

theorem mem_bodyEvents_delivery (msg : responseMessage) (out : Conn → Bool) (order : List Conn)
    (c : Conn) :
    Event.write c msg true ∈ order.flatMap (bodyEvents msg out) ↔ c ∈ order ∧ out c = true := by
  simp only [List.mem_flatMap]
  constructor
  · rintro ⟨x, hx, hmem⟩
    by_cases ho : out x = true
    · simp only [bodyEvents, ho, if_true, List.mem_singleton, Event.write.injEq, and_true] at hmem
      obtain ⟨rfl, _⟩ := hmem
      exact ⟨hx, ho⟩
    · simp [bodyEvents, ho] at hmem
  · rintro ⟨hc, ho⟩
    exact ⟨c, hc, by simp [bodyEvents, ho]⟩

/-- C1: one broadcast round, for any registry, message, write outcomes and
iteration order, leaves the registry equal to the old one minus exactly the
connections whose write failed; the message is delivered to exactly the
registered connections whose write succeeds, and those are still registered. -/
theorem broadcastRound_evicts_exactly_failed (R : Clients) (tr : List Event)
    (msg : responseMessage) (out : Conn → Bool) (hint : List Conn) :
    (broadcastRound msg out hint ⟨R, tr⟩).clients = R.filter (fun kv => out kv.1) ∧
    (∀ c, Clients.lookup (broadcastRound msg out hint ⟨R, tr⟩).clients c =
        if out c then Clients.lookup R c else none) ∧
    (∀ c, c ∈ Clients.keys (broadcastRound msg out hint ⟨R, tr⟩).clients ↔
        c ∈ Clients.keys R ∧ out c = true) ∧
    ∃ evs, (broadcastRound msg out hint ⟨R, tr⟩).trace = tr ++ evs ∧
      (∀ c, Event.write c msg true ∈ evs ↔ c ∈ Clients.keys R ∧ out c = true) ∧
      (∀ c, Event.close c ∈ evs ↔ c ∈ Clients.keys R ∧ out c = false) := by
  rw [broadcastRound_spec]
  have hks := Clients.keys_nodup R
  refine ⟨rfl, fun c => Clients.lookup_filter R out c, ?_, _, rfl, ?_, ?_⟩
  · intro c
    rw [← Clients.lookup_isSome, ← Clients.lookup_isSome]
    simp only [Clients.lookup_filter R out c]
    by_cases ho : out c = true <;> simp [ho]
  · intro c
    simp only [mem_bodyEvents_delivery, mem_iterOrder _ _ hks]
  · intro c
    simp only [List.mem_flatMap, mem_iterOrder _ _ hks]
    constructor
    · rintro ⟨x, hx, hmem⟩
      by_cases ho : out x = true
      · simp [bodyEvents, ho] at hmem
      · simp only [bodyEvents, ho, List.mem_cons, Event.close.injEq] at hmem
        simp at hmem
        subst hmem
        exact ⟨hx, by simpa using ho⟩
    · rintro ⟨hc, ho⟩
      exact ⟨c, hc, by simp [bodyEvents, ho]⟩

/-- The round of C1 on the registry `{1, 2, 3}` with the write to 2 failing,
iterating in the order 3, 1, 2: the message is delivered to 3 and 1,
connection 2 is closed and removed, and the registry ends as `{1, 3}`. -/
theorem broadcastRound_example :
    broadcastRound ⟨"1", "2", "3", "4.00", "t"⟩ (fun c => decide (c ≠ 2)) [3, 1, 2]
        ⟨[(1, true), (2, true), (3, true)], []⟩ =
      ⟨[(1, true), (3, true)],
        [Event.write 3 ⟨"1", "2", "3", "4.00", "t"⟩ true,
          Event.write 1 ⟨"1", "2", "3", "4.00", "t"⟩ true,
          Event.write 2 ⟨"1", "2", "3", "4.00", "t"⟩ false, Event.printf, Event.close 2]⟩ := by
  decide

/-- C8: in one broadcast round exactly one write is attempted on each
connection registered at the start of the round (none skipped, none visited
twice, no retry after a failure), and every attempt carries the same
payload `msg`. -/
theorem broadcastRound_one_attempt_each (R : Clients) (tr : List Event)
    (msg : responseMessage) (out : Conn → Bool) (hint : List Conn) :
    ∃ evs, (broadcastRound msg out hint ⟨R, tr⟩).trace = tr ++ evs ∧
      (writeAttempts evs).Perm ((Clients.keys R).map (fun c => (c, msg))) ∧
      (∀ c, ((writeAttempts evs).map Prod.fst).count c = if c ∈ Clients.keys R then 1 else 0) ∧
      (∀ a ∈ writeAttempts evs, a.2 = msg) := by
  rw [broadcastRound_spec]
  have hks := Clients.keys_nodup R
  refine ⟨_, rfl, ?_, ?_, ?_⟩
  · rw [writeAttempts_bodyEvents]
    exact (iterOrder_perm hint _ hks).map _
  · intro c
    rw [writeAttempts_bodyEvents, List.map_map]
    have hid : (Prod.fst ∘ fun c => (c, msg)) = (id : Conn → Conn) := rfl
    rw [hid, List.map_id, (iterOrder_perm hint _ hks).count_eq]
    by_cases hc : c ∈ Clients.keys R
    · rw [if_pos hc]
      exact List.count_eq_one_of_mem hks hc
    · rw [if_neg hc]
      exact List.count_eq_zero_of_not_mem hc
  · intro a ha
    rw [writeAttempts_bodyEvents, List.mem_map] at ha
    obtain ⟨c, _, rfl⟩ := ha
    rfl

/-! ## The lifecycle handler -/

theorem readLoop_oks (ws : Conn) (payloads : List (Int × List Nat)) (rest : List ReadResult) :
    ∀ w : World, readLoop ws (payloads.map Except.ok ++ rest) w =
      readLoop ws rest
        ⟨w.clients, w.trace ++ List.replicate payloads.length (Event.read ws true)⟩ := by
  induction payloads with
  | nil =>
    intro w
    simp
  | cons x xs ih =>
    intro w
    have h := ih ⟨w.clients, w.trace ++ [Event.read ws true]⟩
    simp only [List.map_cons, List.cons_append, readLoop, List.length_cons,
      List.replicate_succ, List.append_eq]
    rw [h]
    simp

/-- C7: after a successful upgrade to `ws`, from any registry `R`:
`handleConnections` registers `ws`; while the first `k` reads succeed (`k` the
number of `payloads`) it stays blocked in its read loop with `ws` registered
and nothing else done; on the first read error it removes `ws`, reads no
further (`rest` is not consulted), closes `ws` and returns `nil`.  All other
entries of `R` are as they were, before and after. -/
theorem handleConnections_lifecycle (R : Clients) (tr : List Event) (ws : Conn)
    (payloads : List (Int × List Nat)) (e : GoError) (rest : List ReadResult) :
    handleConnections (Except.ok ws) (payloads.map Except.ok) ⟨R, tr⟩ =
      (HandlerResult.reading ws,
        ⟨Clients.set R ws true,
          tr ++ Event.upgrade true :: List.replicate payloads.length (Event.read ws true)⟩) ∧
    handleConnections (Except.ok ws) (payloads.map Except.ok ++ Except.error e :: rest) ⟨R, tr⟩ =
      (HandlerResult.returned none,
        ⟨Clients.delete (Clients.set R ws true) ws,
          tr ++ Event.upgrade true :: (List.replicate payloads.length (Event.read ws true) ++
            [Event.read ws false, Event.printf, Event.close ws])⟩) ∧
    (∀ c, Clients.lookup (Clients.set R ws true) c =
      if c = ws then some true else Clients.lookup R c) ∧
    (∀ c, Clients.lookup (Clients.delete (Clients.set R ws true) ws) c =
      if c = ws then none else Clients.lookup R c) := by
  refine ⟨?_, ?_, ?_, ?_⟩
  · have h := readLoop_oks ws payloads [] ⟨Clients.set R ws true, tr ++ [Event.upgrade true]⟩
    simp only [List.append_nil] at h
    simp only [handleConnections, h, readLoop, List.append_assoc, List.singleton_append]
  · have h := readLoop_oks ws payloads (Except.error e :: rest)
      ⟨Clients.set R ws true, tr ++ [Event.upgrade true]⟩
    simp only [handleConnections, h, readLoop, List.append_assoc, List.singleton_append,
      List.cons_append, List.nil_append]
  · intro c
    exact Clients.lookup_set R ws c true
  · intro c
    rw [Clients.lookup_delete, Clients.lookup_set]
    by_cases h : c = ws <;> simp [h]

/-- C4, the code at a failing upgrade: `handleConnections` leaves the registry
as it was, but it does not return the upgrade error to its caller: after
`log.Fatalf` the process is terminated with exit status 1. -/
theorem handleConnections_upgrade_failure_exits (R : Clients) (tr : List Event) (e : GoError)
    (reads : List ReadResult) :
    handleConnections (Except.error e) reads ⟨R, tr⟩ =
      (HandlerResult.exited 1, ⟨R, tr ++ [Event.upgrade false, Event.fatalf]⟩) ∧
    (handleConnections (Except.error e) reads ⟨R, tr⟩).1 ≠ HandlerResult.returned (some e) := by
  constructor
  · rfl
  · simp [handleConnections]

theorem transportClosures_skip (c : Conn) (closed : Bool) (evs : List Event) :
    ∀ tr : List Event, Event.close c ∉ tr →
      transportClosures c closed (tr ++ evs) = transportClosures c closed evs := by
  intro tr
  induction tr with
  | nil =>
    intro _
    rfl
  | cons x rest ih =>
    intro h
    have hx : x ≠ Event.close c := fun e => h (e ▸ List.mem_cons_self _ _)
    have hr : Event.close c ∉ rest := fun m => h (List.mem_cons_of_mem _ m)
    cases x with
    | close c2 =>
      have hc : ¬ c2 = c := fun e => hx (by rw [e])
      simp only [List.cons_append, transportClosures, hc, if_false]
      exact ih hr
    | upgrade ok => simpa only [List.cons_append, transportClosures] using ih hr
    | read c2 ok => simpa only [List.cons_append, transportClosures] using ih hr
    | write c2 m ok => simpa only [List.cons_append, transportClosures] using ih hr
    | printf => simpa only [List.cons_append, transportClosures] using ih hr
    | fatalf => simpa only [List.cons_append, transportClosures] using ih hr

/-- C3: unregistering twice is as unregistering once.  For every registry `R`
and connection `c` whose transport has not been closed before, when `c` is
evicted by the send-failure path of the broadcaster and then cleaned up by the
read-failure path of its handler, the registry is the one after the eviction
alone (`R` without `c`), the handler returns `nil`, and the transport of `c`
has been closed exactly once: `Close` is called by each path, and the second
call, on the closed transport, closes nothing. -/
theorem evict_then_cleanup (R : Clients) (tr : List Event) (c : Conn) (msg : responseMessage)
    (out : Conn → Bool) (e : GoError) (rest : List ReadResult) (hout : out c = false)
    (hopen : Event.close c ∉ tr) :
    (readLoop c (Except.error e :: rest) (broadcastBody msg out c ⟨R, tr⟩)).2.clients =
      (broadcastBody msg out c ⟨R, tr⟩).clients ∧
    (broadcastBody msg out c ⟨R, tr⟩).clients = Clients.delete R c ∧
    (readLoop c (Except.error e :: rest) (broadcastBody msg out c ⟨R, tr⟩)).1 =
      HandlerResult.returned none ∧
    transportClosures c false (broadcastBody msg out c ⟨R, tr⟩).trace = 1 ∧
    transportClosures c false
        (readLoop c (Except.error e :: rest) (broadcastBody msg out c ⟨R, tr⟩)).2.trace = 1 ∧
    List.count (Event.close c)
        (readLoop c (Except.error e :: rest) (broadcastBody msg out c ⟨R, tr⟩)).2.trace = 2 := by
  have hcount : List.count (Event.close c) tr = 0 := List.count_eq_zero_of_not_mem hopen
  refine ⟨?_, ?_, ?_, ?_, ?_, ?_⟩
  · simp [readLoop, broadcastBody, hout, Clients.delete_delete]
  · simp [broadcastBody, hout]
  · simp [readLoop]
  · simp only [broadcastBody, hout, Bool.false_eq_true, if_false]
    rw [transportClosures_skip c false _ tr hopen]
    simp [transportClosures]
  · simp only [readLoop, broadcastBody, hout, Bool.false_eq_true, if_false, List.append_assoc]
    rw [transportClosures_skip c false _ tr hopen]
    simp [transportClosures]
  · simp [readLoop, broadcastBody, hout, List.count_append, List.count_cons, hcount]

/-- An instance of `evict_then_cleanup`: connection 2 of the registry
`{1, 2, 3}`, after the three upgrades. -/
theorem evict_then_cleanup_witness :
    (readLoop 2 [Except.error "closed"]
      (broadcastBody ⟨"1", "2", "3", "4.00", "t"⟩ (fun c => decide (c ≠ 2)) 2
        ⟨[(1, true), (2, true), (3, true)],
          [Event.upgrade true, Event.upgrade true, Event.upgrade true]⟩)).2.clients =
      [(1, true), (3, true)] ∧
    transportClosures 2 false
      (readLoop 2 [Except.error "closed"]
        (broadcastBody ⟨"1", "2", "3", "4.00", "t"⟩ (fun c => decide (c ≠ 2)) 2
          ⟨[(1, true), (2, true), (3, true)],
            [Event.upgrade true, Event.upgrade true, Event.upgrade true]⟩)).2.trace = 1 := by
  have h := evict_then_cleanup [(1, true), (2, true), (3, true)]
    [Event.upgrade true, Event.upgrade true, Event.upgrade true] 2
    ⟨"1", "2", "3", "4.00", "t"⟩ (fun c => decide (c ≠ 2)) "closed" [] (by decide) (by decide)
  refine ⟨?_, h.2.2.2.2.1⟩
  rw [h.1, h.2.1]
  decide

/-- The whole lifetime of connection 1, evaluated: connect, a round in which
its write fails, then the read failure in its handler.  The registry ends
empty, as after the eviction alone; `Close` is called twice and the transport
is closed once. -/
theorem connection_lifetime_example :
    (run [Op.connect 1, Op.round ⟨"1", "2", "3", "4.00", "t"⟩ (fun _ => false) [],
        Op.readFail 1] ⟨Clients.empty, []⟩).clients =
      (run [Op.connect 1, Op.round ⟨"1", "2", "3", "4.00", "t"⟩ (fun _ => false) []]
        ⟨Clients.empty, []⟩).clients ∧
    List.count (Event.close 1)
      (run [Op.connect 1, Op.round ⟨"1", "2", "3", "4.00", "t"⟩ (fun _ => false) [],
        Op.readFail 1] ⟨Clients.empty, []⟩).trace = 2 ∧
    transportClosures 1 false
      (run [Op.connect 1, Op.round ⟨"1", "2", "3", "4.00", "t"⟩ (fun _ => false) [],
        Op.readFail 1] ⟨Clients.empty, []⟩).trace = 1 := by
  decide

/-! ## The sampler -/

/-- C5, the code at a failing query: an iteration whose query fails sends
nothing and logs, and the next query follows at once: no `sleep` stands
between the failed query and the next one, while a successful iteration ends
with the one-second sleep. -/
theorem collectStats_failure_no_sleep (e : GoError) (v : VirtualMemoryStat) (now : GoTime)
    (rest : List Sample) :
    collectStats (Sample.failure e :: Sample.success v now :: rest) =
      SamplerEvent.query false :: SamplerEvent.printf ::
        SamplerEvent.query true :: SamplerEvent.send (buildMessage v now) ::
          SamplerEvent.sleep 1000000000 :: collectStats rest ∧
    collectStats [Sample.failure e, Sample.failure e] =
      [SamplerEvent.query false, SamplerEvent.printf,
        SamplerEvent.query false, SamplerEvent.printf] := by
  constructor <;> rfl

/-! ## Sequences of operations: membership of the registry -/

theorem Op.step_clients (op : Op) (w : World) :
    (Op.step op w).clients =
      match op with
      | Op.connect ws => Clients.set w.clients ws true
      | Op.readFail ws => Clients.delete w.clients ws
      | Op.round _ out _ => w.clients.filter (fun kv => out kv.1) := by
  cases op with
  | connect ws => rfl
  | readFail ws => rfl
  | round msg out hint => simp only [Op.step, broadcastRound_spec]

theorem Op.step_lookup (op : Op) (w : World) (c : Conn) :
    Clients.lookup (Op.step op w).clients c =
      match op with
      | Op.connect ws => if c = ws then some true else Clients.lookup w.clients c
      | Op.readFail ws => if c = ws then none else Clients.lookup w.clients c
      | Op.round _ out _ => if out c then Clients.lookup w.clients c else none := by
  rw [Op.step_clients]
  cases op with
  | connect ws => exact Clients.lookup_set _ _ _ _
  | readFail ws => exact Clients.lookup_delete _ _ _
  | round msg out hint => exact Clients.lookup_filter _ out c

theorem Op.step_mem_keys (op : Op) (w : World) (c : Conn) :
    c ∈ Clients.keys (Op.step op w).clients ↔
      op = Op.connect c ∨ (c ∈ Clients.keys w.clients ∧ Op.removes c op = false) := by
  rw [← Clients.lookup_isSome, ← Clients.lookup_isSome, Op.step_lookup]
  cases op with
  | connect ws =>
    by_cases h : c = ws
    · subst h
      simp
    · have h2 : ¬ ws = c := fun e => h e.symm
      simp [h, h2, Op.removes]
  | readFail ws =>
    by_cases h : c = ws
    · subst h
      simp [Op.removes]
    · have h2 : ¬ ws = c := fun e => h e.symm
      simp [h, h2, Op.removes]
  | round msg out hint =>
    by_cases h : out c = true <;> simp [h, Op.removes]

theorem survives_cons (c : Conn) (op : Op) (rest : List Op) :
    Survives c (op :: rest) ↔
      Survives c rest ∨ (op = Op.connect c ∧ ∀ o ∈ rest, Op.removes c o = false) := by
  constructor
  · rintro ⟨pre, post, heq, hpost⟩
    cases pre with
    | nil =>
      right
      simp only [List.nil_append, List.cons.injEq] at heq
      obtain ⟨h1, h2⟩ := heq
      subst h2
      exact ⟨h1, hpost⟩
    | cons x pre2 =>
      left
      simp only [List.cons_append, List.cons.injEq] at heq
      exact ⟨pre2, post, heq.2, hpost⟩
  · rintro (⟨pre, post, heq, hpost⟩ | ⟨h1, h2⟩)
    · exact ⟨op :: pre, post, by rw [heq]; rfl, hpost⟩
    · exact ⟨[], rest, by rw [h1]; rfl, h2⟩

theorem run_mem_keys (c : Conn) :
    ∀ (ops : List Op) (w : World),
      c ∈ Clients.keys (run ops w).clients ↔
        Survives c ops ∨ (c ∈ Clients.keys w.clients ∧ ∀ o ∈ ops, Op.removes c o = false) := by
  intro ops
  induction ops with
  | nil =>
    intro w
    have : ¬ Survives c [] := by
      rintro ⟨pre, post, heq, _⟩
      cases pre <;> simp at heq
    simp [run, this]
  | cons op rest ih =>
    intro w
    rw [run, ih, Op.step_mem_keys, survives_cons]
    simp only [List.mem_cons, forall_eq_or_imp]
    constructor
    · rintro (h | ⟨h1 | ⟨h1, h2⟩, h3⟩)
      · exact Or.inl (Or.inl h)
      · exact Or.inl (Or.inr ⟨h1, h3⟩)
      · exact Or.inr ⟨h1, h2, h3⟩
    · rintro ((h | ⟨h1, h3⟩) | ⟨h1, h2, h3⟩)
      · exact Or.inl h
      · exact Or.inr ⟨Or.inl h1, h3⟩
      · exact Or.inr ⟨Or.inr ⟨h1, h2⟩, h3⟩

theorem run_flags_true (c : Conn) :
    ∀ (ops : List Op) (w : World),
      (∀ k v, Clients.lookup w.clients k = some v → v = true) →
      ∀ v, Clients.lookup (run ops w).clients c = some v → v = true := by
  intro ops
  induction ops with
  | nil =>
    intro w hw v hv
    exact hw c v hv
  | cons op rest ih =>
    intro w hw
    rw [run]
    apply ih
    intro k v hv
    rw [Op.step_lookup] at hv
    cases op with
    | connect ws =>
      by_cases h : k = ws
      · simp only [h, if_true, Option.some.injEq] at hv
        exact hv.symm
      · simp only [h, if_false] at hv
        exact hw k v hv
    | readFail ws =>
      by_cases h : k = ws
      · simp [h] at hv
      · simp only [h, if_false] at hv
        exact hw k v hv
    | round msg out hint =>
      by_cases h : out k = true
      · simp only [h, if_true] at hv
        exact hw k v hv
      · simp [h] at hv

/-- C2: for every finite sequence of connects, read failures and broadcast
rounds (with any write outcomes and iteration orders) run from the empty
registry, a connection is in the final registry (with flag `true`) exactly
when it connected and afterwards neither had a read failure nor failed a
write in a round. -/
theorem registry_membership_after_run (ops : List Op) (c : Conn) :
    (c ∈ Clients.keys (run ops ⟨Clients.empty, []⟩).clients ↔ Survives c ops) ∧
    (Clients.lookup (run ops ⟨Clients.empty, []⟩).clients c = some true ↔ Survives c ops) := by
  have hk : c ∈ Clients.keys (run ops ⟨Clients.empty, []⟩).clients ↔ Survives c ops := by
    rw [run_mem_keys]
    simp [Clients.empty, Clients.keys]
  refine ⟨hk, ?_⟩
  rw [← hk, ← Clients.lookup_isSome]
  constructor
  · intro h
    simp [h]
  · intro h
    cases hv : Clients.lookup (run ops ⟨Clients.empty, []⟩).clients c with
    | none => simp [hv] at h
    | some v =>
      have := run_flags_true c ops ⟨Clients.empty, []⟩
        (fun k v hkv => by simp [Clients.empty, Clients.lookup] at hkv) v hv
      rw [this]

/-! ## Order of the writes across rounds -/

theorem Op.step_writeAttempts (op : Op) (w : World) :
    writeAttempts (Op.step op w).trace =
      writeAttempts w.trace ++
        match op with
        | Op.round msg _ hint => (iterOrder hint (Clients.keys w.clients)).map (fun c => (c, msg))
        | _ => [] := by
  cases op with
  | connect ws =>
    simp [Op.step, handleConnections, readLoop, writeAttempts_append, writeAttempts]
  | readFail ws =>
    simp [Op.step, readLoop, writeAttempts_append, writeAttempts]
  | round msg out hint =>
    simp only [Op.step, broadcastRound_spec, writeAttempts_append, writeAttempts_bodyEvents]

theorem roundBlocks_nil_blocks (ch : List responseMessage) :
    roundBlocks ch (List.replicate ch.length []) = [] := by
  induction ch with
  | nil => rfl
  | cons m rest ih =>
    simp only [roundBlocks, List.length_cons, List.replicate_succ, List.zipWith_cons_cons,
      List.map_nil, List.flatten_cons, List.nil_append] at ih ⊢
    exact ih

theorem run_schedule_writeAttempts :
    ∀ (sched : List Sched) (ch : List responseMessage) (w : World),
      ∃ ks : List (List Conn), ks.length = ch.length ∧ (∀ cs ∈ ks, cs.Nodup) ∧
        writeAttempts (run (schedule ch sched) w).trace =
          writeAttempts w.trace ++ roundBlocks ch ks := by
  intro sched
  induction sched with
  | nil =>
    intro ch w
    refine ⟨List.replicate ch.length [], by simp, ?_, ?_⟩
    · intro cs hcs
      rw [List.eq_of_mem_replicate hcs]
      exact List.nodup_nil
    · simp [schedule, run, roundBlocks_nil_blocks]
  | cons sl rest ih =>
    intro ch w
    cases sl with
    | connect ws =>
      obtain ⟨ks, h1, h2, h3⟩ := ih ch (Op.step (Op.connect ws) w)
      refine ⟨ks, h1, h2, ?_⟩
      rw [schedule, run, h3, Op.step_writeAttempts]
      simp
    | readFail ws =>
      obtain ⟨ks, h1, h2, h3⟩ := ih ch (Op.step (Op.readFail ws) w)
      refine ⟨ks, h1, h2, ?_⟩
      rw [schedule, run, h3, Op.step_writeAttempts]
      simp
    | receive out hint =>
      cases ch with
      | nil =>
        obtain ⟨ks, h1, h2, h3⟩ := ih [] w
        refine ⟨ks, h1, h2, ?_⟩
        rw [schedule, h3]
      | cons m ch2 =>
        obtain ⟨ks, h1, h2, h3⟩ := ih ch2 (Op.step (Op.round m out hint) w)
        refine ⟨iterOrder hint (Clients.keys w.clients) :: ks, by simp [h1], ?_, ?_⟩
        · intro cs hcs
          rcases List.mem_cons.mp hcs with h | h
          · rw [h]
            exact iterOrder_nodup _ _ (Clients.keys_nodup _)
          · exact h2 cs h
        · rw [schedule, run, h3, Op.step_writeAttempts]
          simp [roundBlocks, List.append_assoc]

theorem filter_eq_of_nodup (c : Conn) (cs : List Conn) (h : cs.Nodup) :
    cs.filter (fun x => decide (x = c)) = if c ∈ cs then [c] else [] := by
  induction cs with
  | nil => simp
  | cons x rest ih =>
    have hx : x ∉ rest := (List.nodup_cons.mp h).1
    have hr := ih (List.nodup_cons.mp h).2
    by_cases e : x = c
    · subst e
      simp [List.filter_cons, hr, hx]
    · have e2 : ¬ c = x := fun h => e h.symm
      simp [List.filter_cons, e, e2, hr]

theorem roundBlocks_sublist (c : Conn) :
    ∀ (ch : List responseMessage) (ks : List (List Conn)), (∀ cs ∈ ks, cs.Nodup) →
      (((roundBlocks ch ks).filter (fun a => decide (a.1 = c))).map Prod.snd).Sublist ch := by
  intro ch
  induction ch with
  | nil =>
    intro ks _
    simp [roundBlocks]
  | cons m rest ih =>
    intro ks hks
    cases ks with
    | nil => simp [roundBlocks]
    | cons cs ks2 =>
      have h1 : cs.Nodup := hks cs (List.mem_cons_self _ _)
      have h2 := ih ks2 (fun x hx => hks x (List.mem_cons_of_mem _ hx))
      have hb : roundBlocks (m :: rest) (cs :: ks2) =
          cs.map (fun c => (c, m)) ++ roundBlocks rest ks2 := by
        simp [roundBlocks]
      have hf : ((cs.map (fun c => (c, m))).filter (fun a => decide (a.1 = c))).map Prod.snd =
          if c ∈ cs then [m] else [] := by
        rw [List.filter_map, List.map_map]
        have : ((fun a : Conn × responseMessage => decide (a.1 = c)) ∘ fun c => (c, m)) =
            fun x => decide (x = c) := rfl
        rw [this, filter_eq_of_nodup c cs h1]
        by_cases hc : c ∈ cs <;> simp [hc]
      rw [hb, List.filter_append, List.map_append, hf]
      by_cases hc : c ∈ cs
      · simp only [hc, if_true, List.singleton_append]
        exact h2.cons₂ m
      · simp only [hc, if_false, List.nil_append]
        exact h2.cons m

theorem sent_collectStats (samples : List Sample) :
    sent (collectStats samples) = samples.filterMap sampleMessage := by
  induction samples with
  | nil => rfl
  | cons x rest ih =>
    cases x with
    | failure e => simpa [collectStats, sent, sampleMessage] using ih
    | success v now => simpa [collectStats, sent, sampleMessage] using ih

/-- C9: the messages emitted by `collectStats` (those of the successful
samples, in sampling order), in that order, are consumed by
`handleMessages` one per round; whatever the handlers and the write outcomes
do in between, the messages written to any connection `c` form an
order-preserving subsequence of the emitted ones, and the writes of the trace
are the writes of round 1 (all of message 1), then those of round 2 (all of
message 2), and so on. -/
theorem writes_follow_emission_order (samples : List Sample) (sched : List Sched) (R : Clients)
    (c : Conn) :
    sent (collectStats samples) = samples.filterMap sampleMessage ∧
    (writesTo c (run (schedule (sent (collectStats samples)) sched) ⟨R, []⟩).trace).Sublist
      (sent (collectStats samples)) ∧
    ∃ ks : List (List Conn), ks.length = (sent (collectStats samples)).length ∧
      (∀ cs ∈ ks, cs.Nodup) ∧
      writeAttempts (run (schedule (sent (collectStats samples)) sched) ⟨R, []⟩).trace =
        roundBlocks (sent (collectStats samples)) ks := by
  obtain ⟨ks, h1, h2, h3⟩ :=
    run_schedule_writeAttempts sched (sent (collectStats samples)) ⟨R, []⟩
  simp only [writeAttempts, List.nil_append] at h3
  refine ⟨sent_collectStats samples, ?_, ks, h1, h2, h3⟩
  rw [writesTo, h3]
  exact roundBlocks_sublist c _ ks h2

/-! ## Formatting of the sample -/

theorem toDigitsCore_eq (n : Nat) :
    ∀ (f : Nat) (ds : List Char), n < f →
      Nat.toDigitsCore 10 f n ds = Nat.toDigits 10 n ++ ds := by
  induction n using Nat.strong_induction_on with
  | _ n ih =>
    intro f ds hf
    cases f with
    | zero => omega
    | succ f2 =>
      by_cases h0 : n / 10 = 0
      · simp [Nat.toDigits, Nat.toDigitsCore, h0]
      · have hlt : n / 10 < n := by omega
        have h1 := ih (n / 10) hlt f2 (Nat.digitChar (n % 10) :: ds) (by omega)
        have h2 := ih (n / 10) hlt n [Nat.digitChar (n % 10)] hlt
        simp only [Nat.toDigits, Nat.toDigitsCore, h0, if_false] at h1 h2 ⊢
        rw [h1, h2]
        simp

theorem toDigits_step (n : Nat) :
    Nat.toDigits 10 n =
      if n < 10 then [Nat.digitChar n] else Nat.toDigits 10 (n / 10) ++ [Nat.digitChar (n % 10)] := by
  by_cases h : n < 10
  · have h0 : n / 10 = 0 := by omega
    have h1 : n % 10 = n := by omega
    simp [Nat.toDigits, Nat.toDigitsCore, h0, h1, h]
  · have h0 : ¬ n / 10 = 0 := by omega
    have h2 := toDigitsCore_eq (n / 10) n [Nat.digitChar (n % 10)] (by omega)
    rw [if_neg h]
    simp only [Nat.toDigits, Nat.toDigitsCore, h0, if_false] at h2 ⊢
    rw [h2]

theorem digitChar_isDigit (d : Nat) (h : d < 10) : (Nat.digitChar d).isDigit = true := by
  interval_cases d <;> rfl

theorem toDigits_isDigit (n : Nat) : ∀ c ∈ Nat.toDigits 10 n, c.isDigit = true := by
  induction n using Nat.strong_induction_on with
  | _ n ih =>
    intro c hc
    rw [toDigits_step] at hc
    by_cases h : n < 10
    · simp only [h, if_true, List.mem_singleton] at hc
      rw [hc]
      exact digitChar_isDigit n h
    · simp only [h, if_false, List.mem_append, List.mem_singleton] at hc
      rcases hc with hc | hc
      · exact ih (n / 10) (by omega) c hc
      · rw [hc]
        exact digitChar_isDigit _ (by omega)

theorem toDigits_ne_nil (n : Nat) : Nat.toDigits 10 n ≠ [] := by
  rw [toDigits_step]
  by_cases h : n < 10 <;> simp [h]

theorem zeroPad_one (n : Nat) (h : n < 10) : zeroPad 1 n = [Nat.digitChar n] := by
  rw [zeroPad, toDigits_step, if_pos h]
  rfl

theorem zeroPad_succ (w n : Nat) (hw : 1 ≤ w) :
    zeroPad (w + 1) n = zeroPad w (n / 10) ++ [Nat.digitChar (n % 10)] := by
  by_cases h : n < 10
  · have h0 : n / 10 = 0 := by omega
    have h1 : n % 10 = n := by omega
    have hz : Nat.toDigits 10 0 = ['0'] := rfl
    rw [zeroPad, zeroPad, toDigits_step n, if_pos h, h0, h1, hz]
    simp only [List.length_singleton, Nat.add_sub_cancel]
    obtain ⟨k, rfl⟩ : ∃ k, w = k + 1 := ⟨w - 1, by omega⟩
    simp [List.replicate_succ']
  · rw [zeroPad, zeroPad, toDigits_step n, if_neg h]
    simp only [List.length_append, List.length_singleton, Nat.add_sub_add_right,
      List.append_assoc]

theorem zeroPad_two (n : Nat) (h : n < 100) :
    zeroPad 2 n = [Nat.digitChar (n / 10), Nat.digitChar (n % 10)] := by
  rw [zeroPad_succ 1 n (le_refl 1), zeroPad_one (n / 10) (by omega)]
  rfl

theorem zeroPad_four (n : Nat) (h : n < 10000) :
    zeroPad 4 n = [Nat.digitChar (n / 1000), Nat.digitChar (n / 100 % 10),
      Nat.digitChar (n / 10 % 10), Nat.digitChar (n % 10)] := by
  rw [zeroPad_succ 3 n (by omega), zeroPad_succ 2 (n / 10) (by omega),
    zeroPad_succ 1 (n / 10 / 10) (by omega), zeroPad_one (n / 10 / 10 / 10) (by omega)]
  have e1 : n / 10 / 10 = n / 100 := by omega
  have e2 : n / 10 / 10 / 10 = n / 1000 := by omega
  rw [e2, e1]
  rfl

theorem round_half_even_close (n d : Nat) (hd : 0 < d) :
    |(((if 2 * (n % d) < d then n / d
        else if d < 2 * (n % d) then n / d + 1
        else if n / d % 2 = 0 then n / d else n / d + 1 : Nat)) : ℚ) - (n : ℚ) / (d : ℚ)| ≤
      1 / 2 := by
  have hdq : (0 : ℚ) < (d : ℚ) := by exact_mod_cast hd
  have hr : n % d < d := Nat.mod_lt _ hd
  have hrq : ((n % d : Nat) : ℚ) < (d : ℚ) := by exact_mod_cast hr
  have hq : (n : ℚ) = (d : ℚ) * ((n / d : Nat) : ℚ) + ((n % d : Nat) : ℚ) := by
    exact_mod_cast (Nat.div_add_mod n d).symm
  have hval : (n : ℚ) / (d : ℚ) = ((n / d : Nat) : ℚ) + ((n % d : Nat) : ℚ) / (d : ℚ) := by
    rw [eq_comm, ← sub_eq_zero]
    field_simp
    rw [hq]
    ring
  rw [hval]
  have hx0 : 0 ≤ ((n % d : Nat) : ℚ) / (d : ℚ) := by positivity
  have hx1 : ((n % d : Nat) : ℚ) / (d : ℚ) < 1 := by
    rw [div_lt_one hdq]
    exact hrq
  by_cases c1 : 2 * (n % d) < d
  · have c1q : 2 * ((n % d : Nat) : ℚ) < (d : ℚ) := by exact_mod_cast c1
    have : ((n % d : Nat) : ℚ) / (d : ℚ) < 1 / 2 := by
      rw [div_lt_iff₀ hdq]
      linarith
    rw [if_pos c1, abs_le]
    constructor <;> linarith
  · by_cases c2 : d < 2 * (n % d)
    · have c2q : (d : ℚ) < 2 * ((n % d : Nat) : ℚ) := by exact_mod_cast c2
      have : 1 / 2 < ((n % d : Nat) : ℚ) / (d : ℚ) := by
        rw [lt_div_iff₀ hdq]
        linarith
      rw [if_neg c1, if_pos c2, abs_le]
      push_cast
      constructor <;> linarith
    · have c3 : 2 * (n % d) = d := by omega
      have c3q : 2 * ((n % d : Nat) : ℚ) = (d : ℚ) := by exact_mod_cast c3
      have : ((n % d : Nat) : ℚ) / (d : ℚ) = 1 / 2 := by
        rw [div_eq_iff (ne_of_gt hdq)]
        linarith
      rw [if_neg c1, if_neg c2, abs_le]
      by_cases c4 : n / d % 2 = 0
      · rw [if_pos c4]
        constructor <;> linarith
      · rw [if_neg c4]
        push_cast
        constructor <;> linarith

theorem roundHundredths_close (mant : Nat) (exp : Int) :
    |((roundHundredths mant exp : Nat) : ℚ) - 100 * ((mant : ℚ) * (2 : ℚ) ^ exp)| ≤ 1 / 2 := by
  cases exp with
  | ofNat k =>
    have : ((roundHundredths mant (Int.ofNat k) : Nat) : ℚ) = 100 * ((mant : ℚ) * (2 : ℚ) ^ k) := by
      simp only [roundHundredths]
      push_cast
      ring
    rw [this]
    simp
  | negSucc k =>
    have hdn : 0 < 2 ^ (k + 1) := by positivity
    have h := round_half_even_close (mant * 100) (2 ^ (k + 1)) hdn
    have hval : 100 * ((mant : ℚ) * (2 : ℚ) ^ (Int.negSucc k)) =
        ((mant * 100 : Nat) : ℚ) / ((2 ^ (k + 1) : Nat) : ℚ) := by
      rw [zpow_negSucc]
      push_cast
      ring
    rw [hval]
    exact h

theorem appendInt_two (n : Nat) (h : n < 100) :
    appendInt (n : Int) 2 = [Nat.digitChar (n / 10), Nat.digitChar (n % 10)] := by
  have : ¬ ((n : Int) < 0) := by omega
  rw [appendInt, if_neg this, Int.natAbs_ofNat, zeroPad_two n h]

theorem appendInt_four (y : Int) (h0 : 0 ≤ y) (h1 : y ≤ 9999) :
    appendInt y 4 = [Nat.digitChar (y.toNat / 1000), Nat.digitChar (y.toNat / 100 % 10),
      Nat.digitChar (y.toNat / 10 % 10), Nat.digitChar (y.toNat % 10)] := by
  have : ¬ (y < 0) := by omega
  have e : y.natAbs = y.toNat := by omega
  rw [appendInt, if_neg this, e, zeroPad_four y.toNat (by omega)]

/-- C10 as the code has it: for a successful sample with byte counts `Total`,
`Used`, `Free`, a finite non-negative used-percentage `mant * 2^exp` and a capture time `t` with
year in 0..9999, the message sent by `collectStats` has `TotalMemory`,
`UsedMemory`, `FreeMemory` equal to the decimal renderings of
`floor(Total/1048576)`, `floor(Used/1048576)`, `floor(Free/1048576)` (`Used` to
`UsedMemory`, `Free` to `FreeMemory`), `PercentageUsedMemory` equal to the
percentage rounded to hundredths and printed with exactly two fractional
digits (in the language of `^\d+\.\d{2}$`), and `Time` equal to the
19-character zero-padded `DD-MM-YYYY HH:MM:SS` of `t`. -/
theorem buildMessage_format (Total Used Free mant : Nat) (exp : Int) (t : GoTime)
    (ht : t.valid) (hy0 : 0 ≤ t.year) (hy1 : t.year ≤ 9999) :
    ∃ msg, collectStats [Sample.success ⟨Total, Used, Free, Float64.finite false mant exp⟩ t] =
        [SamplerEvent.query true, SamplerEvent.send msg, SamplerEvent.sleep 1000000000] ∧
      msg.TotalMemory = Nat.repr (Total / 1048576) ∧
      msg.UsedMemory = Nat.repr (Used / 1048576) ∧
      msg.FreeMemory = Nat.repr (Free / 1048576) ∧
      Nat.floor ((Total : ℚ) / 1048576) = Total / 1048576 ∧
      Nat.floor ((Used : ℚ) / 1048576) = Used / 1048576 ∧
      Nat.floor ((Free : ℚ) / 1048576) = Free / 1048576 ∧
      msg.PercentageUsedMemory.data =
        Nat.toDigits 10 (roundHundredths mant exp / 100) ++
          ['.', Nat.digitChar (roundHundredths mant exp % 100 / 10),
            Nat.digitChar (roundHundredths mant exp % 10)] ∧
      |((roundHundredths mant exp : Nat) : ℚ) - 100 * ((mant : ℚ) * (2 : ℚ) ^ exp)| ≤ 1 / 2 ∧
      MatchesPercent msg.PercentageUsedMemory.data ∧
      msg.Time.data =
        [Nat.digitChar (t.day / 10), Nat.digitChar (t.day % 10), '-',
          Nat.digitChar (t.month / 10), Nat.digitChar (t.month % 10), '-',
          Nat.digitChar (t.year.toNat / 1000), Nat.digitChar (t.year.toNat / 100 % 10),
          Nat.digitChar (t.year.toNat / 10 % 10), Nat.digitChar (t.year.toNat % 10), ' ',
          Nat.digitChar (t.hour / 10), Nat.digitChar (t.hour % 10), ':',
          Nat.digitChar (t.minute / 10), Nat.digitChar (t.minute % 10), ':',
          Nat.digitChar (t.second / 10), Nat.digitChar (t.second % 10)] ∧
      msg.Time.length = 19 ∧
      MatchesTime msg.Time.data := by
  obtain ⟨hm1, hm2, hd1, hd2, hh, hmi, hs⟩ := ht
  have hfloor : ∀ n : Nat, Nat.floor ((n : ℚ) / 1048576) = n / 1048576 := by
    intro n
    have := Nat.floor_div_eq_div (α := ℚ) n 1048576
    simpa using this
  have hpct : (buildMessage ⟨Total, Used, Free, Float64.finite false mant exp⟩ t).PercentageUsedMemory.data =
      Nat.toDigits 10 (roundHundredths mant exp / 100) ++
        ['.', Nat.digitChar (roundHundredths mant exp % 100 / 10),
          Nat.digitChar (roundHundredths mant exp % 10)] := by
    have hz := zeroPad_two (roundHundredths mant exp % 100) (Nat.mod_lt _ (by decide))
    have e : roundHundredths mant exp % 100 % 10 = roundHundredths mant exp % 10 := by omega
    simp only [buildMessage, sprintf2f, hz, e]
    simp
  have htime : (buildMessage ⟨Total, Used, Free, Float64.finite false mant exp⟩ t).Time.data =
      [Nat.digitChar (t.day / 10), Nat.digitChar (t.day % 10), '-',
        Nat.digitChar (t.month / 10), Nat.digitChar (t.month % 10), '-',
        Nat.digitChar (t.year.toNat / 1000), Nat.digitChar (t.year.toNat / 100 % 10),
        Nat.digitChar (t.year.toNat / 10 % 10), Nat.digitChar (t.year.toNat % 10), ' ',
        Nat.digitChar (t.hour / 10), Nat.digitChar (t.hour % 10), ':',
        Nat.digitChar (t.minute / 10), Nat.digitChar (t.minute % 10), ':',
        Nat.digitChar (t.second / 10), Nat.digitChar (t.second % 10)] := by
    simp only [buildMessage, formatTime, appendInt_two t.day (by omega),
      appendInt_two t.month (by omega), appendInt_two t.hour (by omega),
      appendInt_two t.minute (by omega), appendInt_two t.second (by omega),
      appendInt_four t.year hy0 hy1]
    simp
  refine ⟨buildMessage ⟨Total, Used, Free, Float64.finite false mant exp⟩ t, rfl, rfl, rfl, rfl,
    hfloor Total, hfloor Used, hfloor Free, hpct, roundHundredths_close mant exp, ?_, htime, ?_, ?_⟩
  · rw [hpct]
    refine ⟨_, _, _, rfl, toDigits_ne_nil _, toDigits_isDigit _, ?_, ?_⟩
    · exact digitChar_isDigit _ (by omega)
    · exact digitChar_isDigit _ (by omega)
  · rw [String.length, htime]
    rfl
  · rw [htime]
    refine ⟨_, _, _, _, _, _, _, _, _, _, _, _, _, _, rfl, ?_⟩
    intro c hc
    simp only [List.mem_cons, List.mem_singleton, List.not_mem_nil, or_false] at hc
    rcases hc with h | h | h | h | h | h | h | h | h | h | h | h | h | h <;>
      (rw [h]; exact digitChar_isDigit _ (by omega))

/-- An instance of `buildMessage_format`: 16 GiB of memory, 42.17 percent
used, sampled on 4 November 2026 at 09:05:00. -/
theorem buildMessage_format_witness :
    GoTime.valid ⟨2026, 11, 4, 9, 5, 0⟩ ∧
    ∃ msg, collectStats [Sample.success ⟨17179869184, 7244963840, 9000000000,
          Float64.finite false 5935229968613868 (-47)⟩ ⟨2026, 11, 4, 9, 5, 0⟩] =
        [SamplerEvent.query true, SamplerEvent.send msg, SamplerEvent.sleep 1000000000] ∧
      msg.TotalMemory = Nat.repr (17179869184 / 1048576) ∧
      MatchesPercent msg.PercentageUsedMemory.data ∧
      msg.Time.length = 19 ∧
      MatchesTime msg.Time.data := by
  obtain ⟨msg, h1, h2, _, _, _, _, _, _, _, hp, _, hl, ht⟩ :=
    buildMessage_format 17179869184 7244963840 9000000000 5935229968613868 (-47)
      ⟨2026, 11, 4, 9, 5, 0⟩ (by decide) (by decide) (by decide)
  exact ⟨by decide, msg, h1, h2, hp, hl, ht⟩

/-- The message of the sample above, evaluated. -/
theorem buildMessage_example :
    buildMessage ⟨17179869184, 7244963840, 9000000000,
        Float64.finite false 5935229968613868 (-47)⟩ ⟨2026, 11, 4, 9, 5, 0⟩ =
      { TotalMemory := "16384"
        UsedMemory := "6909"
        FreeMemory := "8583"
        PercentageUsedMemory := "42.17"
        Time := "04-11-2026 09:05:00" } := by
  decide

/-- Outside the finite non-negative values `%.2f` prints no two-digit
fraction of digits only: a not-a-number, an infinity and a negative value
print as `NaN`, `+Inf` and with a minus sign. -/
theorem sprintf2f_other_values :
    sprintf2f Float64.nan = "NaN" ∧ sprintf2f (Float64.inf false) = "+Inf" ∧
      sprintf2f (Float64.inf true) = "-Inf" ∧
      sprintf2f (Float64.finite true 3 (-1)) = "-1.50" := by
  decide

/-- C10 fails for a sample whose percentage is not a number (gopsutil divides
`Used` by `Total`, so a sample with `Total = 0` has it): `collectStats` sends
the message all the same, its `PercentageUsedMemory` is `NaN`, which has no
two fractional digits and is not in the language of `^\d+\.\d{2}$`. -/
theorem percentage_not_a_number :
    collectStats [Sample.success ⟨0, 0, 0, Float64.nan⟩ ⟨2026, 11, 4, 9, 5, 0⟩] =
      [SamplerEvent.query true,
        SamplerEvent.send (buildMessage ⟨0, 0, 0, Float64.nan⟩ ⟨2026, 11, 4, 9, 5, 0⟩),
        SamplerEvent.sleep 1000000000] ∧
    (buildMessage ⟨0, 0, 0, Float64.nan⟩ ⟨2026, 11, 4, 9, 5, 0⟩).PercentageUsedMemory = "NaN" ∧
    ¬ MatchesPercent
      (buildMessage ⟨0, 0, 0, Float64.nan⟩ ⟨2026, 11, 4, 9, 5, 0⟩).PercentageUsedMemory.data := by
  refine ⟨rfl, rfl, ?_⟩
  rintro ⟨ds, a, b, h, hne, _⟩
  have hl := congrArg List.length h
  have hd : (buildMessage ⟨0, 0, 0, Float64.nan⟩
      ⟨2026, 11, 4, 9, 5, 0⟩).PercentageUsedMemory.data = ['N', 'a', 'N'] := rfl
  rw [hd] at hl
  simp only [List.length_append, List.length_cons, List.length_nil] at hl
  have : ds.length = 0 := by omega
  exact hne (List.length_eq_zero.mp this)

end GoWebsocket
